import Mathlib

/-!
Verification of the CLSAG key-set module (`src/keys.rs`) and of the ring
signature protocol described in the design document (§4.3 signing, §4.4
verification).

The Ristretto group used by the implementation is a cyclic group of prime
order `L` with a canonical injective 32-byte encoding of every point.  We
embed it shallowly: scalars and points are both `ZMod L` (a point is
identified with its discrete logarithm with respect to a fixed generator,
which is faithful to the group structure because the group is cyclic of
order `L`), scalar multiplication of a point is ring multiplication, and
the canonical compressed encoding is the 32-byte little-endian encoding of
the canonical representative.  The hash functions (hash-to-point and the
Fiat-Shamir transcript hash) are trusted external primitives and are kept
as parameters, collected in a `HashModel`.
-/

namespace Clsag

/-- Order of the Ristretto/edwards25519 prime-order subgroup. -/
def L : ℕ := 2 ^ 252 + 27742317777372353535851937790883648493

instance : NeZero L := ⟨by unfold L; positivity⟩

/-- Scalars of the curve backend (`curve25519_dalek::scalar::Scalar`). -/
abbrev Sc : Type := ZMod L

/-- Points of the prime-order group (`RistrettoPoint`), identified with their
discrete logarithms with respect to a fixed generator. -/
abbrev Pt : Type := ZMod L

/-- Modelled from the spec: the fixed basepoint (`constants.rs` is not part of
the available sources; §6 requires a fixed generator of the group, and any
nonzero element of a group of prime order is a generator). -/
def BASEPOINT : Pt := 2

/-- Little-endian base-256 digits, padded/truncated to `n` bytes. -/
def natToBytes : ℕ → ℕ → List ℕ
  | 0, _ => []
  | n + 1, v => v % 256 :: natToBytes n (v / 256)

/-- Value of a little-endian byte string. -/
def bytesToNat : List ℕ → ℕ
  | [] => 0
  | b :: bs => b + 256 * bytesToNat bs

/-- Canonical compressed 32-byte encoding of a point
(`RistrettoPoint::compress`).  Injective because `L < 256 ^ 32`. -/
def compressBytes (p : Pt) : List ℕ := natToBytes 32 (ZMod.val p)

/-- Decompression of a 32-byte string back to a point; fails on strings that
are not the canonical encoding of a group element
(`CompressedRistretto::decompress`). -/
def decompressBytes (bs : List ℕ) : Option Pt :=
  if bs.length = 32 ∧ (∀ b ∈ bs, b < 256) ∧ bytesToNat bs < L then
    some ((bytesToNat bs : ℕ) : Pt)
  else
    none

/-- Structure `PublicSet` from `src/keys.rs`: one ring member's ordered vector of
public keys, one per layer. -/
structure PublicSet where
  points : List Pt
deriving DecidableEq

/-- Method `PublicSet::len`. -/
def PublicSet.len (ps : PublicSet) : ℕ := ps.points.length

/-- Method `PublicSet::is_empty`. -/
def PublicSet.isEmptySet (ps : PublicSet) : Bool := ps.points.length = 0

/-- Method `PublicSet::duplicates_exist`: compress every point and compare the
number of points with the number of distinct compressed encodings (the Rust
code collects the encodings into a `HashSet` and compares lengths; the
number of distinct elements of a list is the length of its dedup). -/
def PublicSet.duplicates_exist (ps : PublicSet) : Bool :=
  ps.points.length != ((ps.points.map compressBytes).dedup).length

/-- Method `PublicSet::hashed_pubkey`: hash-to-point of the compressed first
public key.  The Rust code indexes `self.0[0]` without a guard and panics on
an empty set; the panic is modelled by `none`. -/
def PublicSet.hashed_pubkey (htp : List ℕ → Pt) (ps : PublicSet) : Option Pt :=
  ps.points.head?.map fun p => htp (compressBytes p)

/-- Structure `PrivateSet` from `src/keys.rs`: the signer's ordered vector of private
scalars. -/
structure PrivateSet where
  scalars : List Sc
deriving DecidableEq

/-- Method `PrivateSet::new`: wraps the scalar vector, performing no validation. -/
def PrivateSet.new (scalars : List Sc) : PrivateSet := ⟨scalars⟩

/-- Method `PrivateSet::to_public_set`: multiplies every private scalar by the
basepoint. -/
def PrivateSet.to_public_set (pv : PrivateSet) : PublicSet :=
  ⟨pv.scalars.map fun x => x * BASEPOINT⟩

/-- Method `PrivateSet::compute_key_images`: multiplies every private scalar by the
supplied generator and compresses the result, in scalar order. -/
def PrivateSet.compute_key_images (pv : PrivateSet) (signers_basepoint : Pt) :
    List (List ℕ) :=
  pv.scalars.map fun x => compressBytes (x * signers_basepoint)

/-- Method `PrivateSet::len`. -/
def PrivateSet.len (pv : PrivateSet) : ℕ := pv.scalars.length

/-- Modelled from the spec: the two hash primitives consumed by the protocol
(§6), which are external trusted collaborators — `htp` is hash-to-point of a
byte string, `ch` is the Fiat-Shamir transcript hash producing a challenge
scalar from the message, the aggregated public keys, the aggregated key
image and the two commitment points (the domain tag of §4.3 is folded into
the function), and `mu` derives the layer-`j` aggregation weight from the
layer index, the ring's public keys and the published key images (§4.3
step 1). -/
structure HashModel where
  htp : List ℕ → Pt
  ch : List ℕ → List Pt → Pt → Pt → Pt → Sc
  mu : ℕ → List (List Pt) → List (List ℕ) → Sc

/-- Modelled from the spec: the `Signature` record of §3 — initial
challenge, one response scalar per ring member, one compressed key image
per layer. -/
structure Signature where
  initial_challenge : Sc
  responses : List Sc
  key_images : List (List ℕ)
deriving DecidableEq

/-- Modelled from the spec: the error taxonomy of §7 restricted to the
verification path (§4.4). -/
inductive ClsagError where
  | LengthMismatch
  | InvalidEncoding
  | ChallengeMismatch
deriving DecidableEq

/-- Modelled from the spec: per-member generator — hash-to-point of the
compressed first-layer public key of the member (§2.3, `hashed_pubkey`),
computable by the verifier from public data. -/
def hashedKeyOf (hm : HashModel) (member : List Pt) : Pt :=
  hm.htp (compressBytes (member.headD 0))

/-- Modelled from the spec: aggregated public point of one member,
`P_i = sum_j mu_j * P_(i,j)` (§4.3 step 1). -/
def aggPub (mus : List Sc) (member : List Pt) : Pt :=
  (List.zipWith (fun mu p => mu * p) mus member).sum

/-- Modelled from the spec: aggregated key image `I = sum_j mu_j * I_j`
(§4.3 step 2, §4.4 step 1). -/
def aggImage (mus : List Sc) (imgPts : List Pt) : Pt :=
  (List.zipWith (fun mu p => mu * p) mus imgPts).sum

/-- Modelled from the spec: the layer aggregation weights `mu_j` for
`j < k` (§4.3 step 1). -/
def muWeights (hm : HashModel) (k : ℕ) (pubs : List (List Pt))
    (imgs : List (List ℕ)) : List Sc :=
  (List.range k).map fun j => hm.mu j pubs imgs

/-- Modelled from the spec: one step of the Fiat-Shamir challenge chain —
from the challenge `c` at ring position `i` and the response `s_i`, the next
challenge is
`Hash(m, P, I, s_i*B + c*P_i, s_i*H(P_(i,0)) + c*I)` (§4.3 step 4, §4.4
step 2; the per-position hashed key is the member's own hashed first-layer
key, the only reading under which the verifier of §4.4, who does not know
the signer index, can recompute the chain). -/
def chStep (hm : HashModel) (m : List ℕ) (pubs : List (List Pt))
    (aggPs : List Pt) (aggI : Pt) (rs : List Sc) (i : ℕ) (c : Sc) : Sc :=
  hm.ch m aggPs aggI
    (rs.getD i 0 * BASEPOINT + c * aggPs.getD i 0)
    (rs.getD i 0 * hashedKeyOf hm (pubs.getD i []) + c * aggI)

/-- Iterate challenge-chain steps over a list of ring positions. -/
def chainFold (step : ℕ → Sc → Sc) (idxs : List ℕ) (c : Sc) : Sc :=
  idxs.foldl (fun a i => step i a) c

/-- Modelled from the spec: the signer's per-member generator
`H(P_(l,0))` (§4.3 step 2). -/
def signHp (hm : HashModel) (pubs : List (List Pt)) (l : ℕ) : Pt :=
  hashedKeyOf hm (pubs.getD l [])

/-- Modelled from the spec: the signer's published key images
`I_j = x_j * H(P_(l,0))` (§4.3 step 2), computed by
`PrivateSet::compute_key_images`. -/
def signKeyImages (hm : HashModel) (pubs : List (List Pt)) (l : ℕ)
    (xs : List Sc) : List (List ℕ) :=
  (PrivateSet.new xs).compute_key_images (signHp hm pubs l)

/-- Modelled from the spec: aggregation weights used while signing. -/
def signMus (hm : HashModel) (pubs : List (List Pt)) (l : ℕ)
    (xs : List Sc) : List Sc :=
  muWeights hm xs.length pubs (signKeyImages hm pubs l xs)

/-- Modelled from the spec: the aggregated public points of all members,
computed while signing (§4.3 step 1). -/
def signAggPs (hm : HashModel) (pubs : List (List Pt)) (l : ℕ)
    (xs : List Sc) : List Pt :=
  pubs.map (aggPub (signMus hm pubs l xs))

/-- Modelled from the spec: the signer's aggregated private scalar
`x = sum_j mu_j * x_(l,j)` (§4.3 step 1). -/
def signX (hm : HashModel) (pubs : List (List Pt)) (l : ℕ)
    (xs : List Sc) : Sc :=
  (List.zipWith (fun mu a => mu * a) (signMus hm pubs l xs) xs).sum

/-- Modelled from the spec: the aggregated key image computed while signing
(§4.3 step 2). -/
def signAggI (hm : HashModel) (pubs : List (List Pt)) (l : ℕ)
    (xs : List Sc) : Pt :=
  aggImage (signMus hm pubs l xs) (xs.map fun a => a * signHp hm pubs l)

/-- Modelled from the spec: chain initialization — the challenge at ring
position `l+1` is `Hash(m, P, I, alpha*B, alpha*H(P_(l,0)))` (§4.3
step 3). -/
def signCInit (hm : HashModel) (pubs : List (List Pt)) (l : ℕ)
    (xs : List Sc) (m : List ℕ) (alpha : Sc) : Sc :=
  hm.ch m (signAggPs hm pubs l xs) (signAggI hm pubs l xs)
    (alpha * BASEPOINT) (alpha * signHp hm pubs l)

/-- The challenge-chain step function used while signing, with the decoy
responses `rs`. -/
def signStep (hm : HashModel) (pubs : List (List Pt)) (l : ℕ)
    (xs : List Sc) (m : List ℕ) (rs : List Sc) : ℕ → Sc → Sc :=
  chStep hm m pubs (signAggPs hm pubs l xs) (signAggI hm pubs l xs) rs

/-- Modelled from the spec: the challenge produced at the signer's position
`l` after walking the whole ring cyclically from position `l+1` (§4.3
step 4; position `(l+1+t) mod n` is visited after `t` steps). -/
def signCl (hm : HashModel) (pubs : List (List Pt)) (l : ℕ) (xs : List Sc)
    (m : List ℕ) (alpha : Sc) (ss : List Sc) : Sc :=
  chainFold (signStep hm pubs l xs m ss)
    ((List.range (pubs.length - 1)).map fun t => (l + 1 + t) % pubs.length)
    (signCInit hm pubs l xs m alpha)

/-- Modelled from the spec: the challenge obtained at ring position `0`
during the walk, stored as `initial_challenge` (§4.3 step 6; position `0` is
reached after `n - 1 - l` steps from position `l+1`). -/
def signC0 (hm : HashModel) (pubs : List (List Pt)) (l : ℕ) (xs : List Sc)
    (m : List ℕ) (alpha : Sc) (ss : List Sc) : Sc :=
  chainFold (signStep hm pubs l xs m ss)
    ((List.range (pubs.length - 1 - l)).map fun t => (l + 1 + t) % pubs.length)
    (signCInit hm pubs l xs m alpha)

/-- Modelled from the spec: the signing protocol of §4.3 (`clsag.rs` is not
part of the available sources).  The ring is `pubs` (one public-key vector
per member), the signer sits at index `l` and owns the private scalars `xs`;
`alpha` is the random nonce and `ss` the random decoy responses.  The real
response `s_l = alpha - c_l * x` replaces the slot `l` of `ss` (§4.3
step 5). -/
def sign (hm : HashModel) (pubs : List (List Pt)) (l : ℕ) (xs : List Sc)
    (m : List ℕ) (alpha : Sc) (ss : List Sc) : Signature :=
  { initial_challenge := signC0 hm pubs l xs m alpha ss
  , responses :=
      ss.set l (alpha - signCl hm pubs l xs m alpha ss * signX hm pubs l xs)
  , key_images := signKeyImages hm pubs l xs }

/-- Modelled from the spec: decompress every key image of the signature
being verified, failing on the first invalid encoding (§4.4,
`InvalidEncoding`). -/
def decompressAll : List (List ℕ) → Option (List Pt)
  | [] => some []
  | b :: bs =>
    match decompressBytes b, decompressAll bs with
    | some p, some ps => some (p :: ps)
    | _, _ => none

/-- Modelled from the spec: the verification routine of §4.4 (`clsag.rs` is
not part of the available sources).  Recomputes the aggregation weights, the
aggregated public points and the aggregated key image from public data,
re-walks the full ring from `initial_challenge` at position `0`, and accepts
iff the recomputed challenge after the wraparound equals `initial_challenge`;
length and decompression failures are reported first (§4.4 error
conditions). -/
def verify (hm : HashModel) (sig : Signature) (pubs : List (List Pt))
    (m : List ℕ) : Except ClsagError Unit :=
  if sig.responses.length ≠ pubs.length then .error .LengthMismatch
  else if sig.key_images.length ≠ (pubs.headD []).length then
    .error .LengthMismatch
  else
    match decompressAll sig.key_images with
    | none => .error .InvalidEncoding
    | some imgPts =>
      let mus := muWeights hm (pubs.headD []).length pubs sig.key_images
      let aggPs := pubs.map (aggPub mus)
      let aggI := aggImage mus imgPts
      if chainFold (chStep hm m pubs aggPs aggI sig.responses)
          (List.range pubs.length) sig.initial_challenge
          = sig.initial_challenge
      then .ok ()
      else .error .ChallengeMismatch

/-- Concrete hash model used to evaluate the protocol on concrete inputs:
hash-to-point reads the byte string as a number, the transcript hash reads
the first byte of the message, and the aggregation weight is the successor
of the layer index. -/
def hmW : HashModel :=
  { htp := fun bs => ((bytesToNat bs : ℕ) : Pt)
  , ch := fun m _ _ _ _ => ((m.headD 0 : ℕ) : Sc)
  , mu := fun j _ _ => ((j : ℕ) : Sc) + 1 }

/-! ## Helper lemmas -/

/-- Encoding `natToBytes` always produces exactly `n` bytes. -/
theorem natToBytes_length : ∀ n v : ℕ, (natToBytes n v).length = n
  | 0, _ => rfl
  | n + 1, v => by simp [natToBytes, natToBytes_length n]

/-- Every entry of `natToBytes` is a byte. -/
theorem natToBytes_lt : ∀ n v : ℕ, ∀ b ∈ natToBytes n v, b < 256
  | 0, _, _, hb => absurd hb (by simp [natToBytes])
  | n + 1, v, b, hb => by
    simp only [natToBytes, List.mem_cons] at hb
    rcases hb with h | h
    · exact h ▸ Nat.mod_lt v (by omega)
    · exact natToBytes_lt n (v / 256) b h

/-- Decoding the `n`-byte encoding recovers the value modulo `256 ^ n`. -/
theorem bytesToNat_natToBytes :
    ∀ n v : ℕ, bytesToNat (natToBytes n v) = v % 256 ^ n
  | 0, v => by simp [natToBytes, bytesToNat, Nat.mod_one]
  | n + 1, v => by
    simp only [natToBytes, bytesToNat]
    rw [bytesToNat_natToBytes n (v / 256), pow_succ', Nat.mod_mul]

/-- The group order fits into 32 bytes. -/
theorem L_lt_pow : L < 256 ^ 32 := by decide

/-- Decompression is a left inverse of compression: the compressed encoding
of a point is canonical. -/
theorem decompress_compress (p : Pt) :
    decompressBytes (compressBytes p) = some p := by
  have hval : ZMod.val p % 256 ^ 32 = ZMod.val p :=
    Nat.mod_eq_of_lt (lt_trans (ZMod.val_lt p) L_lt_pow)
  unfold decompressBytes compressBytes
  rw [if_pos]
  · rw [bytesToNat_natToBytes, hval]
    exact congrArg some (ZMod.natCast_rightInverse p)
  · refine ⟨natToBytes_length 32 _, natToBytes_lt 32 _, ?_⟩
    rw [bytesToNat_natToBytes, hval]
    exact ZMod.val_lt p

/-- Decompressing a list of compressed points succeeds and recovers the
points. -/
theorem decompressAll_map_compress :
    ∀ ps : List Pt, decompressAll (ps.map compressBytes) = some ps
  | [] => rfl
  | p :: ps => by
    simp only [List.map_cons, decompressAll]
    rw [decompress_compress p, decompressAll_map_compress ps]

/-- Reading with `getD` after `set` at the written index. -/
theorem getD_set_self {α : Type} (d a : α) :
    ∀ (l : List α) (i : ℕ), i < l.length → (l.set i a).getD i d = a
  | [], _, h => absurd h (by simp)
  | _ :: _, 0, _ => rfl
  | _ :: t, i + 1, h => getD_set_self d a t i (by simpa using h)

/-- Reading with `getD` after `set` at a different index. -/
theorem getD_set_ne {α : Type} (d a : α) :
    ∀ (l : List α) (i j : ℕ), i ≠ j → (l.set i a).getD j d = l.getD j d
  | [], _, _, _ => rfl
  | _ :: _, 0, 0, h => absurd rfl h
  | _ :: _, 0, _ + 1, _ => rfl
  | _ :: _, _ + 1, 0, _ => rfl
  | _ :: t, i + 1, j + 1, h =>
    getD_set_ne d a t i j fun he => h (by rw [he])

/-- Aggregating the pointwise multiples `a * g` factors the generator out of
the weighted sum. -/
theorem zipWith_mul_map_sum (g : Pt) :
    ∀ mus xs : List Sc,
      (List.zipWith (fun mu p => mu * p) mus (xs.map fun a => a * g)).sum
        = (List.zipWith (fun mu a => mu * a) mus xs).sum * g
  | [], _ => by simp
  | _ :: _, [] => by simp
  | mu :: mus, x :: xs => by
    simp only [List.map_cons, List.zipWith_cons_cons, List.sum_cons]
    rw [zipWith_mul_map_sum g mus xs, add_mul, mul_assoc]

/-- Folding `chainFold` over a concatenation of position lists. -/
theorem chainFold_append (step : ℕ → Sc → Sc) (l₁ l₂ : List ℕ) (c : Sc) :
    chainFold step (l₁ ++ l₂) c = chainFold step l₂ (chainFold step l₁ c) :=
  List.foldl_append _ _ _ _

/-- The fold `chainFold` only depends on the step function at the visited
positions. -/
theorem chainFold_congr (s₁ s₂ : ℕ → Sc → Sc) :
    ∀ (idxs : List ℕ) (c : Sc), (∀ i ∈ idxs, ∀ a, s₁ i a = s₂ i a) →
      chainFold s₁ idxs c = chainFold s₂ idxs c
  | [], _, _ => rfl
  | i :: t, c, h => by
    simp only [chainFold, List.foldl_cons]
    rw [h i (by simp)]
    exact chainFold_congr s₁ s₂ t (s₂ i c) fun j hj a => h j (by simp [hj]) a

/-- The full index range `0, …, n-1` split around the signer position `l`:
positions before `l`, position `l`, positions after `l`. -/
theorem range_eq_split (n l : ℕ) (hl : l < n) :
    List.range n
      = (List.range l ++ [l])
          ++ (List.range (n - 1 - l)).map fun t => l + 1 + t := by
  have h1 : n = (l + 1) + (n - 1 - l) := by omega
  conv_lhs => rw [h1]
  rw [List.range_add, List.range_succ]

/-- Within the first `n - 1 - l` steps after the signer the cyclic position
`(l + 1 + t) % n` does not wrap. -/
theorem map_mod_eq (n l : ℕ) (hl : l < n) :
    ((List.range (n - 1 - l)).map fun t => (l + 1 + t) % n)
      = (List.range (n - 1 - l)).map fun t => l + 1 + t := by
  apply List.map_congr_left
  intro t ht
  rw [List.mem_range] at ht
  exact Nat.mod_eq_of_lt (by omega)

/-- The signing walk `l+1, …, l+n-1 (mod n)` visits first the positions
after the signer, then wraps to the positions before the signer. -/
theorem sign_walk_split (n l : ℕ) (hl : l < n) :
    ((List.range (n - 1)).map fun t => (l + 1 + t) % n)
      = ((List.range (n - 1 - l)).map fun t => l + 1 + t)
          ++ List.range l := by
  have h1 : n - 1 = (n - 1 - l) + l := by omega
  conv_lhs => rw [h1]
  rw [List.range_add, List.map_append]
  congr 1
  · exact map_mod_eq n l hl
  · rw [List.map_map]
    have h2 : ∀ u ∈ List.range l,
        ((fun t => (l + 1 + t) % n) ∘ fun u => (n - 1 - l) + u) u = u := by
      intro u hu
      rw [List.mem_range] at hu
      show (l + 1 + ((n - 1 - l) + u)) % n = u
      have he : l + 1 + ((n - 1 - l) + u) = n + u := by omega
      rw [he, Nat.add_mod_left, Nat.mod_eq_of_lt (by omega)]
    rw [List.map_congr_left h2, List.map_id']

/-- Abstract chain-closure: if stepping from the signer position `l`
reproduces the chain-initialization challenge, the full verification walk
from position `0` returns to its starting challenge. -/
theorem chainFold_cycle (step : ℕ → Sc → Sc) (n l : ℕ) (hl : l < n)
    (cInit : Sc)
    (hclose : step l (chainFold step (List.range l)
        (chainFold step
          ((List.range (n - 1 - l)).map fun t => l + 1 + t) cInit))
      = cInit) :
    chainFold step (List.range n)
        (chainFold step
          ((List.range (n - 1 - l)).map fun t => l + 1 + t) cInit)
      = chainFold step
          ((List.range (n - 1 - l)).map fun t => l + 1 + t) cInit := by
  rw [range_eq_split n l hl, chainFold_append, chainFold_append]
  rw [show ∀ x, chainFold step [l] x = step l x from fun _ => rfl]
  rw [hclose]

/-- Reading with `getD` of a mapped list at an in-bounds index. -/
theorem getD_map_lt {α β : Type} (f : α → β) :
    ∀ (l : List α) (i : ℕ), i < l.length → ∀ (d : β) (d' : α),
      (l.map f).getD i d = f (l.getD i d')
  | [], i, h, _, _ => absurd h (by simp)
  | _ :: _, 0, _, _, _ => rfl
  | _ :: t, i + 1, h, d, d' => getD_map_lt f t i (by simpa using h) d d'

/-- A list has pairwise-distinct entries iff deduplication preserves its
length. -/
theorem dedup_length_eq_iff {α : Type} [DecidableEq α] (l : List α) :
    l.dedup.length = l.length ↔ l.Nodup := by
  constructor
  · intro h
    have hd : l.dedup = l := l.dedup_sublist.eq_of_length h
    rw [← hd]
    exact l.nodup_dedup
  · intro h
    rw [List.dedup_eq_self.mpr h]

/-- The check `duplicates_exist` is `false` exactly when the compressed encodings of
the points are pairwise distinct. -/
theorem duplicates_exist_false_iff (ps : PublicSet) :
    ps.duplicates_exist = false ↔ (ps.points.map compressBytes).Nodup := by
  unfold PublicSet.duplicates_exist
  rw [bne_eq_false_iff_eq]
  rw [show ps.points.length = (ps.points.map compressBytes).length by simp]
  rw [eq_comm]
  exact dedup_length_eq_iff _

/-- The verification walk over the full ring, driven by the responses
published in the signature, reproduces the stored initial challenge: the
decoy steps replay the signing walk (their responses are unchanged by the
`set` at the signer slot), and the signer step closes the cycle because
`s_l = alpha - c_l * x` turns both commitments back into `alpha * B` and
`alpha * H(P_(l,0))`. -/
theorem sign_chain_closes (hm : HashModel) (pubs : List (List Pt)) (l : ℕ)
    (xs : List Sc) (m : List ℕ) (alpha : Sc) (ss : List Sc)
    (hl : l < pubs.length)
    (hsig : pubs.getD l [] = xs.map fun a => a * BASEPOINT)
    (hss : ss.length = pubs.length) :
    chainFold
        (signStep hm pubs l xs m (sign hm pubs l xs m alpha ss).responses)
        (List.range pubs.length) (signC0 hm pubs l xs m alpha ss)
      = signC0 hm pubs l xs m alpha ss := by
  have hresp : (sign hm pubs l xs m alpha ss).responses
      = ss.set l
          (alpha - signCl hm pubs l xs m alpha ss * signX hm pubs l xs) := rfl
  have hA : signC0 hm pubs l xs m alpha ss
      = chainFold
          (signStep hm pubs l xs m (sign hm pubs l xs m alpha ss).responses)
          ((List.range (pubs.length - 1 - l)).map fun t => l + 1 + t)
          (signCInit hm pubs l xs m alpha) := by
    unfold signC0
    rw [map_mod_eq pubs.length l hl]
    apply chainFold_congr
    intro i hi a
    simp only [List.mem_map, List.mem_range] at hi
    obtain ⟨t, ht, rfl⟩ := hi
    unfold signStep chStep
    rw [hresp, getD_set_ne (0 : Sc) _ ss l (l + 1 + t) (by omega)]
  have hB : signCl hm pubs l xs m alpha ss
      = chainFold
          (signStep hm pubs l xs m (sign hm pubs l xs m alpha ss).responses)
          (List.range l) (signC0 hm pubs l xs m alpha ss) := by
    unfold signCl
    rw [sign_walk_split pubs.length l hl, chainFold_append]
    have hC0 : chainFold (signStep hm pubs l xs m ss)
        ((List.range (pubs.length - 1 - l)).map fun t => l + 1 + t)
        (signCInit hm pubs l xs m alpha)
        = signC0 hm pubs l xs m alpha ss := by
      unfold signC0
      rw [map_mod_eq pubs.length l hl]
    rw [hC0]
    apply chainFold_congr
    intro i hi a
    rw [List.mem_range] at hi
    unfold signStep chStep
    rw [hresp, getD_set_ne (0 : Sc) _ ss l i (by omega)]
  have hx : (signAggPs hm pubs l xs).getD l 0
      = signX hm pubs l xs * BASEPOINT := by
    unfold signAggPs
    rw [getD_map_lt (aggPub (signMus hm pubs l xs)) pubs l hl 0 [], hsig]
    exact zipWith_mul_map_sum BASEPOINT _ xs
  have hI : signAggI hm pubs l xs
      = signX hm pubs l xs * signHp hm pubs l := by
    unfold signAggI aggImage signX
    exact zipWith_mul_map_sum _ _ xs
  have hrsl : (sign hm pubs l xs m alpha ss).responses.getD l 0
      = alpha - signCl hm pubs l xs m alpha ss * signX hm pubs l xs :=
    getD_set_self 0 _ ss l (by rw [hss]; exact hl)
  have hclose : signStep hm pubs l xs m
        (sign hm pubs l xs m alpha ss).responses l
        (signCl hm pubs l xs m alpha ss)
      = signCInit hm pubs l xs m alpha := by
    unfold signStep chStep signCInit
    rw [hrsl, hx, hI]
    unfold signHp
    congr 1
    · ring
    · ring
  rw [hA]
  exact chainFold_cycle _ pubs.length l hl _ (by rw [← hA, ← hB]; exact hclose)

/-- Verifying a freshly produced signature succeeds: all length checks pass,
every key image decompresses, and the recomputed challenge chain closes. -/
theorem verify_sign_ok (hm : HashModel) (pubs : List (List Pt)) (l : ℕ)
    (xs : List Sc) (m : List ℕ) (alpha : Sc) (ss : List Sc)
    (hl : l < pubs.length)
    (hk0 : (pubs.headD []).length = xs.length)
    (hsig : pubs.getD l [] = xs.map fun a => a * BASEPOINT)
    (hss : ss.length = pubs.length) :
    verify hm (sign hm pubs l xs m alpha ss) pubs m = Except.ok () := by
  have hrl : (sign hm pubs l xs m alpha ss).responses.length = pubs.length := by
    show (ss.set l _).length = pubs.length
    rw [List.length_set]
    exact hss
  have hkil : (sign hm pubs l xs m alpha ss).key_images.length
      = (pubs.headD []).length := by
    show (signKeyImages hm pubs l xs).length = _
    unfold signKeyImages PrivateSet.new PrivateSet.compute_key_images
    rw [List.length_map, hk0]
  have hdec : decompressAll (sign hm pubs l xs m alpha ss).key_images
      = some (xs.map fun a => a * signHp hm pubs l) := by
    show decompressAll (signKeyImages hm pubs l xs) = _
    unfold signKeyImages PrivateSet.new PrivateSet.compute_key_images
    rw [show (xs.map fun x => compressBytes (x * signHp hm pubs l))
        = (xs.map fun a => a * signHp hm pubs l).map compressBytes from by
      rw [List.map_map]
      rfl]
    rw [decompressAll_map_compress]
  have hcond := sign_chain_closes hm pubs l xs m alpha ss hl hsig hss
  unfold verify
  rw [if_neg (not_ne_iff.mpr hrl), if_neg (not_ne_iff.mpr hkil), hdec, hk0]
  show (if chainFold
        (signStep hm pubs l xs m (sign hm pubs l xs m alpha ss).responses)
        (List.range pubs.length)
        (signC0 hm pubs l xs m alpha ss) = signC0 hm pubs l xs m alpha ss
      then (Except.ok () : Except ClsagError Unit)
      else Except.error ClsagError.ChallengeMismatch) = Except.ok ()
  rw [if_pos hcond]

/-- Every value produced by folding challenge-chain steps for message `m`
over at least zero positions, starting from a transcript-hash output for
`m`, is itself a transcript-hash output for `m`. -/
theorem chainFold_chStep_ch (hm : HashModel) (m : List ℕ)
    (pubs : List (List Pt)) (aggPs : List Pt) (aggI : Pt) (rs : List Sc) :
    ∀ (idxs : List ℕ) (c : Sc),
      (∃ a i LL RR, c = hm.ch m a i LL RR) →
      ∃ a i LL RR,
        chainFold (chStep hm m pubs aggPs aggI rs) idxs c
          = hm.ch m a i LL RR
  | [], _, h => h
  | j :: t, c, _ => by
    have hstep : ∃ a i LL RR,
        chStep hm m pubs aggPs aggI rs j c = hm.ch m a i LL RR :=
      ⟨aggPs, aggI, _, _, rfl⟩
    show ∃ a i LL RR,
        chainFold (chStep hm m pubs aggPs aggI rs) t
          (chStep hm m pubs aggPs aggI rs j c) = hm.ch m a i LL RR
    exact chainFold_chStep_ch hm m pubs aggPs aggI rs t _ hstep

/-- The stored initial challenge of a signature is a transcript-hash output
for the signed message. -/
theorem signC0_is_ch (hm : HashModel) (pubs : List (List Pt)) (l : ℕ)
    (xs : List Sc) (m : List ℕ) (alpha : Sc) (ss : List Sc) :
    ∃ a i LL RR,
      signC0 hm pubs l xs m alpha ss = hm.ch m a i LL RR := by
  unfold signC0 signStep
  exact chainFold_chStep_ch hm m pubs _ _ ss _ _ ⟨_, _, _, _, rfl⟩

/-- Verifying against a different message fails with `ChallengeMismatch`
whenever the transcript hash separates the two messages: the recomputed
final challenge is a hash output for the tampered message while the stored
challenge is a hash output for the original one. -/
theorem verify_sign_tampered (hm : HashModel) (pubs : List (List Pt))
    (l : ℕ) (xs : List Sc) (m m' : List ℕ) (alpha : Sc) (ss : List Sc)
    (hn : 1 ≤ pubs.length)
    (hl : l < pubs.length)
    (hk0 : (pubs.headD []).length = xs.length)
    (hsig : pubs.getD l [] = xs.map fun a => a * BASEPOINT)
    (hss : ss.length = pubs.length)
    (hsep : ∀ a i LL RR a' i' LL' RR',
      hm.ch m' a i LL RR ≠ hm.ch m a' i' LL' RR') :
    verify hm (sign hm pubs l xs m alpha ss) pubs m'
      = Except.error ClsagError.ChallengeMismatch := by
  have hrl : (sign hm pubs l xs m alpha ss).responses.length
      = pubs.length := by
    show (ss.set l _).length = pubs.length
    rw [List.length_set]
    exact hss
  have hkil : (sign hm pubs l xs m alpha ss).key_images.length
      = (pubs.headD []).length := by
    show (signKeyImages hm pubs l xs).length = _
    unfold signKeyImages PrivateSet.new PrivateSet.compute_key_images
    rw [List.length_map, hk0]
  have hdec : decompressAll (sign hm pubs l xs m alpha ss).key_images
      = some (xs.map fun a => a * signHp hm pubs l) := by
    show decompressAll (signKeyImages hm pubs l xs) = _
    unfold signKeyImages PrivateSet.new PrivateSet.compute_key_images
    rw [show (xs.map fun x => compressBytes (x * signHp hm pubs l))
        = (xs.map fun a => a * signHp hm pubs l).map compressBytes from by
      rw [List.map_map]
      rfl]
    rw [decompressAll_map_compress]
  obtain ⟨a, i, LL, RR, hc0⟩ := signC0_is_ch hm pubs l xs m alpha ss
  have hfin : ∃ a i LL RR,
      chainFold (chStep hm m' pubs (signAggPs hm pubs l xs)
          (signAggI hm pubs l xs)
          (sign hm pubs l xs m alpha ss).responses)
        (List.range pubs.length) (signC0 hm pubs l xs m alpha ss)
        = hm.ch m' a i LL RR := by
    obtain ⟨n', hn'⟩ : ∃ n', pubs.length = n' + 1 :=
      ⟨pubs.length - 1, by omega⟩
    rw [hn', List.range_succ, chainFold_append]
    exact ⟨_, _, _, _, rfl⟩
  obtain ⟨a', i', LL', RR', hfin⟩ := hfin
  have hne : chainFold (chStep hm m' pubs (signAggPs hm pubs l xs)
        (signAggI hm pubs l xs)
        (sign hm pubs l xs m alpha ss).responses)
      (List.range pubs.length) (signC0 hm pubs l xs m alpha ss)
      ≠ signC0 hm pubs l xs m alpha ss := by
    rw [hfin, hc0]
    exact hsep a' i' LL' RR' a i LL RR
  unfold verify
  rw [if_neg (not_ne_iff.mpr hrl), if_neg (not_ne_iff.mpr hkil), hdec, hk0]
  show (if chainFold (chStep hm m' pubs (signAggPs hm pubs l xs)
          (signAggI hm pubs l xs)
          (sign hm pubs l xs m alpha ss).responses)
        (List.range pubs.length) (signC0 hm pubs l xs m alpha ss)
        = signC0 hm pubs l xs m alpha ss
      then (Except.ok () : Except ClsagError Unit)
      else Except.error ClsagError.ChallengeMismatch)
      = Except.error ClsagError.ChallengeMismatch
  rw [if_neg hne]

/-! ## Claims about the signature protocol -/

/-- Claim C1: for every ring of size at least 2 whose member at index `l`
is a valid signer (its public vector is the basepoint multiple of the
private scalars), and every message `m`, verifying the signature produced
by `sign` against the ring's public keys and the same message succeeds. -/
theorem sign_verify_roundtrip (hm : HashModel) (pubs : List (List Pt))
    (l : ℕ) (xs : List Sc) (m : List ℕ) (alpha : Sc) (ss : List Sc)
    (hn : 2 ≤ pubs.length)
    (hl : l < pubs.length)
    (hk0 : (pubs.headD []).length = xs.length)
    (hsig : pubs.getD l [] = xs.map fun a => a * BASEPOINT)
    (hss : ss.length = pubs.length) :
    verify hm (sign hm pubs l xs m alpha ss) pubs m = Except.ok () :=
  verify_sign_ok hm pubs l xs m alpha ss hl hk0 hsig hss

/-- Witness for claim C1: a concrete ring of two single-layer members with
the signer at index 1. -/
theorem sign_verify_roundtrip_witness :
    verify hmW (sign hmW [[3], [2]] 1 [1] [0] 5 [7, 9]) [[3], [2]] [0]
      = Except.ok () :=
  sign_verify_roundtrip hmW [[3], [2]] 1 [1] [0] 5 [7, 9] (by decide)
    (by decide) (by decide) (by decide) (by decide)

/-- Claim C5: when the transcript hash separates the original message `m`
from the tampered message `m'`, verifying a signature on `m` against `m'`
fails with the reported error `ChallengeMismatch` (not a crash), while two
independent signing runs on the same message `m` both verify against
`m`. -/
theorem tamper_sensitivity (hm : HashModel) (pubs : List (List Pt)) (l : ℕ)
    (xs : List Sc) (m m' : List ℕ) (alpha₁ alpha₂ : Sc)
    (ss₁ ss₂ : List Sc)
    (hn : 2 ≤ pubs.length)
    (hl : l < pubs.length)
    (hk0 : (pubs.headD []).length = xs.length)
    (hsig : pubs.getD l [] = xs.map fun a => a * BASEPOINT)
    (hss₁ : ss₁.length = pubs.length)
    (hss₂ : ss₂.length = pubs.length)
    (hsep : ∀ a i LL RR a' i' LL' RR',
      hm.ch m' a i LL RR ≠ hm.ch m a' i' LL' RR') :
    verify hm (sign hm pubs l xs m alpha₁ ss₁) pubs m'
        = Except.error ClsagError.ChallengeMismatch ∧
    verify hm (sign hm pubs l xs m alpha₁ ss₁) pubs m = Except.ok () ∧
    verify hm (sign hm pubs l xs m alpha₂ ss₂) pubs m = Except.ok () :=
  ⟨verify_sign_tampered hm pubs l xs m m' alpha₁ ss₁ (by omega) hl hk0 hsig
      hss₁ hsep,
    verify_sign_ok hm pubs l xs m alpha₁ ss₁ hl hk0 hsig hss₁,
    verify_sign_ok hm pubs l xs m alpha₂ ss₂ hl hk0 hsig hss₂⟩

/-- Witness for claim C5: a concrete two-member ring, message `[0]`,
tampered message `[1]`, and a transcript hash that separates them. -/
theorem tamper_sensitivity_witness :
    verify hmW (sign hmW [[3], [2]] 1 [1] [0] 5 [7, 9]) [[3], [2]] [1]
        = Except.error ClsagError.ChallengeMismatch ∧
    verify hmW (sign hmW [[3], [2]] 1 [1] [0] 5 [7, 9]) [[3], [2]] [0]
        = Except.ok () ∧
    verify hmW (sign hmW [[3], [2]] 1 [1] [0] 99 [4, 8]) [[3], [2]] [0]
        = Except.ok () :=
  tamper_sensitivity hmW [[3], [2]] 1 [1] [0] [1] 5 99 [7, 9] [4, 8]
    (by decide) (by decide) (by decide) (by decide) (by decide) (by decide)
    (by
      intro a i LL RR a' i' LL' RR'
      show ((1 : ℕ) : Sc) ≠ ((0 : ℕ) : Sc)
      decide)

/-- Claim C6: the key images of a signature are a deterministic function of
the signer's private scalars and the signer's own hashed public key only —
two signing runs with arbitrary (different) nonces, decoy responses and
even messages produce bit-identical `key_images`, equal to
`compute_key_images` at the signer's hashed first public key. -/
theorem key_images_deterministic (hm : HashModel) (pubs : List (List Pt))
    (l : ℕ) (xs : List Sc) (m₁ m₂ : List ℕ) (alpha₁ alpha₂ : Sc)
    (ss₁ ss₂ : List Sc) :
    (sign hm pubs l xs m₁ alpha₁ ss₁).key_images
        = (sign hm pubs l xs m₂ alpha₂ ss₂).key_images ∧
    (sign hm pubs l xs m₁ alpha₁ ss₁).key_images
        = (PrivateSet.new xs).compute_key_images (signHp hm pubs l) :=
  ⟨rfl, rfl⟩

/-! ## Claims about the key-set module -/

/-- Claim C2: for every vector of private scalars `xs`,
`PrivateSet(xs).to_public_set()` returns a `PublicSet` of the same length
whose element at every index `i` equals `xs[i] * BASEPOINT`. -/
theorem to_public_set_spec (xs : List Sc) :
    (PrivateSet.new xs).to_public_set.len = (PrivateSet.new xs).len ∧
    ∀ i, i < xs.length →
      (PrivateSet.new xs).to_public_set.points.getD i 0
        = xs.getD i 0 * BASEPOINT := by
  constructor
  · simp [PrivateSet.new, PrivateSet.to_public_set, PublicSet.len,
      PrivateSet.len]
  · intro i hi
    simpa [PrivateSet.new, PrivateSet.to_public_set] using
      getD_map_lt (fun x => x * BASEPOINT) xs i hi 0 0

/-- Witness for claim C2 at the concrete input `[2, 3]`, index `1`. -/
theorem to_public_set_spec_witness :
    (PrivateSet.new [2, 3]).to_public_set.len = (PrivateSet.new [2, 3]).len ∧
    (PrivateSet.new [2, 3]).to_public_set.points.getD 1 0
      = (3 : Sc) * BASEPOINT :=
  ⟨(to_public_set_spec [2, 3]).1, (to_public_set_spec [2, 3]).2 1 (by decide)⟩

/-- Claim C3: `duplicates_exist()` is `false` iff the canonical compressed
encodings of the points are pairwise distinct, and any two equal points at
distinct indices force it to `true`. -/
theorem duplicates_exist_spec (ps : PublicSet) :
    (ps.duplicates_exist = false ↔ (ps.points.map compressBytes).Nodup) ∧
    ∀ i j, i < ps.points.length → j < ps.points.length → i ≠ j →
      ps.points.getD i 0 = ps.points.getD j 0 →
      ps.duplicates_exist = true := by
  refine ⟨duplicates_exist_false_iff ps, ?_⟩
  intro i j hi hj hne heq
  cases hb : ps.duplicates_exist with
  | true => rfl
  | false =>
    exfalso
    have hnodup := (duplicates_exist_false_iff ps).mp hb
    have hmi : i < (ps.points.map compressBytes).length := by simpa using hi
    have hmj : j < (ps.points.map compressBytes).length := by simpa using hj
    apply hne
    have hgi : ps.points.getD i 0 = ps.points[i] := List.getD_eq_getElem _ _ hi
    have hgj : ps.points.getD j 0 = ps.points[j] := List.getD_eq_getElem _ _ hj
    have heq2 : (ps.points.map compressBytes).get ⟨i, hmi⟩
        = (ps.points.map compressBytes).get ⟨j, hmj⟩ := by
      rw [List.get_eq_getElem, List.get_eq_getElem, List.getElem_map,
        List.getElem_map, ← hgi, ← hgj, heq]
    have hfin := List.nodup_iff_injective_get.mp hnodup heq2
    exact congrArg Fin.val hfin

/-- Witness for claim C3 at the concrete input `[5, 5]`. -/
theorem duplicates_exist_spec_witness :
    PublicSet.duplicates_exist ⟨[5, 5]⟩ = true :=
  (duplicates_exist_spec ⟨[5, 5]⟩).2 0 1 (by decide) (by decide) (by decide)
    (by decide)

/-- Claim C4: `compute_key_images(g)` returns exactly one compressed point
per private scalar, in order, the `j`-th being the compression of
`xs[j] * g`. -/
theorem compute_key_images_spec (xs : List Sc) (g : Pt) :
    ((PrivateSet.new xs).compute_key_images g).length = xs.length ∧
    ∀ j, j < xs.length →
      ((PrivateSet.new xs).compute_key_images g).getD j []
        = compressBytes (xs.getD j 0 * g) := by
  constructor
  · simp [PrivateSet.new, PrivateSet.compute_key_images]
  · intro j hj
    simpa [PrivateSet.new, PrivateSet.compute_key_images] using
      getD_map_lt (fun x => compressBytes (x * g)) xs j hj [] 0

/-- Witness for claim C4 at the concrete input `[4, 6]`, generator `3`,
index `1`. -/
theorem compute_key_images_spec_witness :
    ((PrivateSet.new [4, 6]).compute_key_images 3).length = 2 ∧
    ((PrivateSet.new [4, 6]).compute_key_images 3).getD 1 []
      = compressBytes ((6 : Sc) * 3) :=
  ⟨(compute_key_images_spec [4, 6] 3).1,
    (compute_key_images_spec [4, 6] 3).2 1 (by decide)⟩

/-- Claim C7: `hashed_pubkey()` is the hash-to-point of the compressed
first-layer key, hence depends only on the first element of the set. -/
theorem hashed_pubkey_spec (htp : List ℕ → Pt) (ps ps' : PublicSet) :
    (ps.points ≠ [] →
      PublicSet.hashed_pubkey htp ps
        = some (htp (compressBytes (ps.points.headD 0)))) ∧
    (ps.points.head? = ps'.points.head? →
      PublicSet.hashed_pubkey htp ps = PublicSet.hashed_pubkey htp ps') := by
  constructor
  · intro h
    rcases ps with ⟨pts⟩
    rcases pts with _ | ⟨p, t⟩
    · exact absurd rfl h
    · rfl
  · intro h
    unfold PublicSet.hashed_pubkey
    rw [h]

/-- Witness for claim C7 at concrete inputs. -/
theorem hashed_pubkey_spec_witness :
    PublicSet.hashed_pubkey hmW.htp ⟨[5]⟩
      = some (hmW.htp (compressBytes (5 : Pt))) ∧
    PublicSet.hashed_pubkey hmW.htp ⟨[5, 6]⟩
      = PublicSet.hashed_pubkey hmW.htp ⟨[5, 7]⟩ :=
  ⟨(hashed_pubkey_spec hmW.htp ⟨[5]⟩ ⟨[5]⟩).1 (by simp),
    (hashed_pubkey_spec hmW.htp ⟨[5, 6]⟩ ⟨[5, 7]⟩).2 rfl⟩

/-- Claim C9: on a `PublicSet` with at most one point (including the empty
set) `duplicates_exist()` returns `false`. -/
theorem duplicates_exist_small (ps : PublicSet)
    (h : ps.points.length ≤ 1) : ps.duplicates_exist = false := by
  rcases ps with ⟨pts⟩
  rcases pts with _ | ⟨p, _ | ⟨q, t⟩⟩
  · rfl
  · simp [PublicSet.duplicates_exist]
  · simp at h

/-- Witness for claim C9 at the concrete inputs `[3]` and `[]`. -/
theorem duplicates_exist_small_witness :
    PublicSet.duplicates_exist ⟨[3]⟩ = false ∧
    PublicSet.duplicates_exist ⟨[]⟩ = false :=
  ⟨duplicates_exist_small ⟨[3]⟩ (by decide),
    duplicates_exist_small ⟨[]⟩ (by decide)⟩

/-- Claim C10: `hashed_pubkey()` returns a value whenever the set has at
least one point (the unguarded index-0 access is in bounds), and on the
empty set the operation panics (modelled by `none`) instead of returning a
value. -/
theorem hashed_pubkey_totality (htp : List ℕ → Pt) (ps : PublicSet) :
    (1 ≤ ps.points.length → ∃ p, PublicSet.hashed_pubkey htp ps = some p) ∧
    (ps.points = [] → PublicSet.hashed_pubkey htp ps = none) := by
  constructor
  · intro h
    rcases ps with ⟨pts⟩
    rcases pts with _ | ⟨p, t⟩
    · simp at h
    · exact ⟨htp (compressBytes p), rfl⟩
  · intro h
    unfold PublicSet.hashed_pubkey
    rw [h]
    rfl

/-- Witness for claim C10 at the concrete inputs `[7]` and `[]`. -/
theorem hashed_pubkey_totality_witness :
    (∃ p, PublicSet.hashed_pubkey hmW.htp ⟨[7]⟩ = some p) ∧
    PublicSet.hashed_pubkey hmW.htp ⟨[]⟩ = none :=
  ⟨(hashed_pubkey_totality hmW.htp ⟨[7]⟩).1 (by decide),
    (hashed_pubkey_totality hmW.htp ⟨[]⟩).2 rfl⟩

/-- Claim C8 fails on the code: `PrivateSet::new` performs no duplicate
check, so a key set whose public points contain a duplicate is constructed
successfully instead of failing with a `DuplicateKey` error — here from the
duplicate private scalars `[1, 1]`, whose public set reports
`duplicates_exist() = true`. -/
theorem new_accepts_duplicates :
    PrivateSet.new [(1 : Sc), 1] = ⟨[1, 1]⟩ ∧
    (PrivateSet.new [(1 : Sc), 1]).to_public_set.duplicates_exist = true :=
  ⟨rfl, by decide⟩

/-- Claim C8 (amended): `PrivateSet::new` performs no validation and always
returns the wrapped scalars unchanged; a duplicate among the derived public
points is detectable afterwards through `duplicates_exist()`, but
construction itself never fails. -/
theorem new_unvalidated (xs : List Sc) :
    PrivateSet.new xs = ⟨xs⟩ ∧
    (¬ xs.Nodup →
      (PrivateSet.new xs).to_public_set.duplicates_exist = true) := by
  refine ⟨rfl, ?_⟩
  intro h
  cases hb : (PrivateSet.new xs).to_public_set.duplicates_exist with
  | true => rfl
  | false =>
    exfalso
    have hnodup := (duplicates_exist_false_iff _).mp hb
    simp only [PrivateSet.new, PrivateSet.to_public_set, List.map_map]
      at hnodup
    exact h (hnodup.of_map _)

/-- Witness for the amended claim C8 at the concrete input `[1, 1]`. -/
theorem new_unvalidated_witness :
    PrivateSet.new [(1 : Sc), 1] = ⟨[1, 1]⟩ ∧
    (PrivateSet.new [(1 : Sc), 1]).to_public_set.duplicates_exist = true :=
  ⟨(new_unvalidated [1, 1]).1, (new_unvalidated [1, 1]).2 (by decide)⟩

end Clsag
